import Mathlib

/-!
Verification of the photon image-editor core against its design document.

The development shallowly embeds the edit-history state machine, the image
normalizer, the data-URL codec, the transport response parser and the
transport error classifier of the repository, and proves (or refutes) the
documented properties about them.
-/

namespace Photon

/-! ## History controller (src/components/ImageEditor.tsx)

The component state relevant to the history claims: the `history` list of
image data URLs, the `currentIndex` cursor (a JavaScript number, initially
`-1`), the `error` message and the `isLoading` flag.  Images are strings
(data URLs); JavaScript truthiness of a string is "non-empty".
-/

structure EditorState where
  history : List String
  currentIndex : Int
  error : Option String
  isLoading : Bool
deriving DecidableEq

/-- The `useState` initial values: `history = []`, `currentIndex = -1`,
`error = null`, `isLoading = false`. -/
def initState : EditorState :=
  { history := [], currentIndex := -1, error := none, isLoading := false }

/-- JavaScript array indexing `history[currentIndex]`: `undefined` (here
`none`) for a negative or out-of-range index. -/
def jsGet (l : List String) (i : Int) : Option String :=
  if i < 0 then none else l.get? i.toNat

/-- `const currentImageUrl = history[currentIndex];` -/
def currentImageUrl (s : EditorState) : Option String :=
  jsGet s.history s.currentIndex

/-- `!prompt.trim()` is true exactly when the prompt trims to the empty
string, i.e. when every character is whitespace. -/
def isBlank (s : String) : Bool :=
  s.data.all Char.isWhitespace

/-- `handleEdit`: guard `if (!prompt.trim() || !currentImageUrl)` sets an
error message and returns; otherwise the awaited edit outcome either
commits (`history.slice(0, currentIndex + 1)` followed by the new image,
cursor at the new last position) or records the error.  A non-empty string is truthy. -/
def handleEdit (prompt : String) (outcome : Except String String) (s : EditorState) :
    EditorState :=
  if isBlank prompt then
    { s with error := some ("Please enter an editing instruction.") }
  else
    match currentImageUrl s with
    | none => { s with error := some ("Please enter an editing instruction.") }
    | some v =>
      if v = "" then
        { s with error := some ("Please enter an editing instruction.") }
      else
        match outcome with
        | .ok imageUrl =>
          let newHistory := s.history.take (s.currentIndex + 1).toNat
          { history := newHistory ++ [imageUrl]
            currentIndex := (newHistory.length : Int)
            error := none
            isLoading := false }
        | .error e => { s with error := some e, isLoading := false }

/-- `processImage` (the `useEffect` body for a new input image): state is
cleared, then on success `history = [normalizedImageUrl]`, `currentIndex = 0`;
on failure the cleared history (`[]`, `-1`) remains and the error is shown. -/
def processImage (outcome : Except String String) (_s : EditorState) : EditorState :=
  match outcome with
  | .ok url => { history := [url], currentIndex := 0, error := none, isLoading := false }
  | .error e => { history := [], currentIndex := -1, error := some e, isLoading := false }

/-- `handleUndo`: `if (currentIndex > 0) setCurrentIndex(currentIndex - 1)`. -/
def handleUndo (s : EditorState) : EditorState :=
  if 0 < s.currentIndex then { s with currentIndex := s.currentIndex - 1 } else s

/-- `handleRedo`: `if (currentIndex < history.length - 1) setCurrentIndex(currentIndex + 1)`. -/
def handleRedo (s : EditorState) : EditorState :=
  if s.currentIndex < (s.history.length : Int) - 1 then
    { s with currentIndex := s.currentIndex + 1 }
  else s

/-- The externally triggered events of the editor component. -/
inductive EditorOp where
  | newImage (outcome : Except String String)
  | edit (prompt : String) (outcome : Except String String)
  | undo
  | redo

def stepOp : EditorOp → EditorState → EditorState
  | .newImage outcome, s => processImage outcome s
  | .edit prompt outcome, s => handleEdit prompt outcome s
  | .undo, s => handleUndo s
  | .redo, s => handleRedo s

def runOps (ops : List EditorOp) (s : EditorState) : EditorState :=
  ops.foldl (fun s op => stepOp op s) s

/-! Helper lemmas about the history controller. -/

lemma jsGet_eq_some {l : List String} {i : Int} {v : String} (h : jsGet l i = some v) :
    0 ≤ i ∧ i.toNat < l.length ∧ l.get? i.toNat = some v := by
  unfold jsGet at h
  split at h
  · exact absurd h (by simp)
  · next hneg =>
    refine ⟨le_of_not_lt hneg, ?_, h⟩
    exact List.get?_eq_some.mp h |>.1

lemma handleEdit_ok {prompt v img : String} {s : EditorState}
    (hp : isBlank prompt = false) (hv : currentImageUrl s = some v) (hv2 : v ≠ "") :
    handleEdit prompt (Except.ok img) s =
      { history := s.history.take (s.currentIndex + 1).toNat ++ [img]
        currentIndex := ((s.history.take (s.currentIndex + 1).toNat).length : Int)
        error := none
        isLoading := false } := by
  unfold handleEdit
  rw [hp, hv]
  simp [hv2]

lemma handleEdit_ok_inbounds {prompt v img : String} {s : EditorState}
    (hp : isBlank prompt = false) (hv : currentImageUrl s = some v) (hv2 : v ≠ "") :
    (handleEdit prompt (Except.ok img) s).history
      = s.history.take (s.currentIndex.toNat + 1) ++ [img]
    ∧ (handleEdit prompt (Except.ok img) s).currentIndex = s.currentIndex + 1 := by
  obtain ⟨hge, hlt, _⟩ := jsGet_eq_some hv
  have htn : (s.currentIndex + 1).toNat = s.currentIndex.toNat + 1 := by
    omega
  have hlen : (s.history.take (s.currentIndex + 1).toNat).length = s.currentIndex.toNat + 1 := by
    rw [htn, List.length_take]
    omega
  rw [handleEdit_ok hp hv hv2]
  constructor
  · simp [htn]
  · simp [hlen]
    omega

/-- The cursor invariant: whenever the history is non-empty, the cursor is a
valid index. -/
def CursorInv (s : EditorState) : Prop :=
  s.history ≠ [] → 0 ≤ s.currentIndex ∧ s.currentIndex < (s.history.length : Int)

lemma cursorInv_step (op : EditorOp) (s : EditorState) (h : CursorInv s) :
    CursorInv (stepOp op s) := by
  cases op with
  | newImage outcome =>
    cases outcome with
    | ok url => intro _; simp [stepOp, processImage]
    | error e => intro hne; simp [stepOp, processImage] at hne
  | edit prompt outcome =>
    show CursorInv (handleEdit prompt outcome s)
    unfold handleEdit
    split
    · exact fun hne => h hne
    · split
      · exact fun hne => h hne
      · next v hv =>
        split
        · exact fun hne => h hne
        · cases outcome with
          | ok imageUrl =>
            intro _
            constructor
            · simp
            · simp
          | error e => exact fun hne => h hne
  | undo =>
    show CursorInv (handleUndo s)
    unfold handleUndo
    split
    · next hpos =>
      intro hne
      have hne' : s.history ≠ [] := hne
      obtain ⟨h0, h1⟩ := h hne'
      refine ⟨?_, ?_⟩
      · show 0 ≤ s.currentIndex - 1
        omega
      · show s.currentIndex - 1 < (s.history.length : Int)
        omega
    · exact h
  | redo =>
    show CursorInv (handleRedo s)
    unfold handleRedo
    split
    · next hlt =>
      intro hne
      have hne' : s.history ≠ [] := hne
      obtain ⟨h0, h1⟩ := h hne'
      refine ⟨?_, ?_⟩
      · show 0 ≤ s.currentIndex + 1
        omega
      · show s.currentIndex + 1 < (s.history.length : Int)
        omega
    · exact h

lemma cursorInv_run (ops : List EditorOp) (s : EditorState) (h : CursorInv s) :
    CursorInv (runOps ops s) := by
  induction ops generalizing s with
  | nil => exact h
  | cons op ops ih => exact ih _ (cursorInv_step op s h)

/-- The event sequence of the branch-overwrite scenario: `reset(I0)`,
`commit(I1)`, `commit(I2)`, `undo()`, `commit(I3)`. -/
def branchTrace (I0 I1 I2 I3 : String) : List EditorOp :=
  [.newImage (.ok I0), .edit ("p") (.ok I1), .edit ("p") (.ok I2),
   .undo, .edit ("p") (.ok I3)]

/-- C1: after `reset(I0)`, `commit(I1)`, `commit(I2)`, `undo()`, `commit(I3)`
the history is `[I0, I1, I3]` with cursor `2`; and in general a commit on a
state whose current image is defined (cursor in bounds, current entry a
truthy string) truncates the history to positions `0..cursor` and appends
the one new image, advancing the cursor to `cursor + 1`. -/
theorem history_commit_branch_overwrite (I0 I1 I2 I3 : String)
    (h0 : I0 ≠ "") (h1 : I1 ≠ "") :
    ((runOps (branchTrace I0 I1 I2 I3) initState).history = [I0, I1, I3]
     ∧ (runOps (branchTrace I0 I1 I2 I3) initState).currentIndex = 2)
    ∧ ∀ (s : EditorState) (prompt img v : String),
        isBlank prompt = false → currentImageUrl s = some v → v ≠ "" →
        (handleEdit prompt (Except.ok img) s).history
          = s.history.take (s.currentIndex.toNat + 1) ++ [img]
        ∧ (handleEdit prompt (Except.ok img) s).currentIndex = s.currentIndex + 1 := by
  have key : runOps (branchTrace I0 I1 I2 I3) initState
      = ⟨[I0, I1, I3], 2, none, false⟩ := by
    have hB : handleEdit ("p") (Except.ok I1) ⟨[I0], 0, none, false⟩
        = ⟨[I0, I1], 1, none, false⟩ := handleEdit_ok (by decide) rfl h0
    have hC : handleEdit ("p") (Except.ok I2) ⟨[I0, I1], 1, none, false⟩
        = ⟨[I0, I1, I2], 2, none, false⟩ := handleEdit_ok (by decide) rfl h1
    have hD : handleEdit ("p") (Except.ok I3) ⟨[I0, I1, I2], 1, none, false⟩
        = ⟨[I0, I1, I3], 2, none, false⟩ := handleEdit_ok (by decide) rfl h1
    show handleEdit ("p") (Except.ok I3) (handleUndo (handleEdit ("p") (Except.ok I2)
        (handleEdit ("p") (Except.ok I1) (processImage (Except.ok I0) initState)))) = _
    rw [show processImage (Except.ok I0) initState = (⟨[I0], 0, none, false⟩ : EditorState)
          from rfl, hB, hC,
        show handleUndo ⟨[I0, I1, I2], 2, none, false⟩
          = (⟨[I0, I1, I2], 1, none, false⟩ : EditorState) from rfl, hD]
  exact ⟨⟨by rw [key], by rw [key]⟩,
    fun s prompt img v hp hv hv2 => handleEdit_ok_inbounds hp hv hv2⟩

theorem history_commit_branch_overwrite_witness :
    (runOps (branchTrace ("a") ("b") ("c") ("d")) initState).history = [("a"), ("b"), ("d")]
    ∧ (handleEdit ("p") (Except.ok ("x")) ⟨[("a")], 0, none, false⟩).history = [("a"), ("x")] := by
  constructor
  · exact (history_commit_branch_overwrite ("a") ("b") ("c") ("d") (by decide) (by decide)).1.1
  · have h := (history_commit_branch_overwrite ("a") ("b") ("c") ("d") (by decide) (by decide)).2
      ⟨[("a")], 0, none, false⟩ ("p") ("x") ("a") (by decide) rfl (by decide)
    rw [h.1]
    rfl

/-- C2: along every operation sequence from the initial state, a non-empty
history implies `0 ≤ cursor < length`; moreover `undo()` at cursor `0` and
`redo()` at the last index leave the whole state unchanged. -/
theorem history_cursor_invariant (ops : List EditorOp) :
    ((runOps ops initState).history ≠ [] →
      0 ≤ (runOps ops initState).currentIndex
      ∧ (runOps ops initState).currentIndex < ((runOps ops initState).history.length : Int))
    ∧ ((runOps ops initState).currentIndex = 0 →
        handleUndo (runOps ops initState) = runOps ops initState)
    ∧ ((runOps ops initState).currentIndex = ((runOps ops initState).history.length : Int) - 1 →
        handleRedo (runOps ops initState) = runOps ops initState) := by
  refine ⟨cursorInv_run ops initState (fun h => absurd rfl h), ?_, ?_⟩
  · intro h0
    unfold handleUndo
    rw [if_neg (by omega)]
  · intro hlast
    unfold handleRedo
    rw [if_neg (by omega)]

/-- A concrete reachable state (history `["a", "b"]`, cursor `0`) used to
instantiate the invariant theorem. -/
def invariantWitnessOps : List EditorOp :=
  [.newImage (.ok ("a")), .edit ("p") (.ok ("b")), .undo]

theorem history_cursor_invariant_witness :
    (0 ≤ (runOps invariantWitnessOps initState).currentIndex
      ∧ (runOps invariantWitnessOps initState).currentIndex
          < ((runOps invariantWitnessOps initState).history.length : Int))
    ∧ handleUndo (runOps invariantWitnessOps initState) = runOps invariantWitnessOps initState :=
  ⟨(history_cursor_invariant invariantWitnessOps).1 (by decide),
   (history_cursor_invariant invariantWitnessOps).2.1 (by decide)⟩

/-- C9: when the awaited edit outcome is any failure, `handleEdit` leaves
the history and the cursor exactly as they were (only the error message and
the busy flag change); the same holds on the validation early-return. -/
theorem edit_failure_preserves_history (prompt msg : String) (s : EditorState) :
    (handleEdit prompt (Except.error msg) s).history = s.history
    ∧ (handleEdit prompt (Except.error msg) s).currentIndex = s.currentIndex := by
  unfold handleEdit
  split
  · exact ⟨rfl, rfl⟩
  · split
    · exact ⟨rfl, rfl⟩
    · split
      · exact ⟨rfl, rfl⟩
      · exact ⟨rfl, rfl⟩

/-! ## Image normalizer (`normalizeImage` in src/components/ImageEditor.tsx)

The geometry of the canvas drawing: a fixed 1024 by 1024 canvas, the content
scaled preserving aspect ratio (`if (img.width > img.height)` chooses which
axis is pinned to 1024) and centered at `((1024 - newWidth) / 2,
(1024 - newHeight) / 2)`, re-encoded as `image/png`.  JavaScript numbers are
modelled as rationals. -/

structure NormalizedCanvas where
  canvasWidth : ℚ
  canvasHeight : ℚ
  newWidth : ℚ
  newHeight : ℚ
  x : ℚ
  y : ℚ
  format : String

def normalizeImage (w h : ℚ) : NormalizedCanvas :=
  let maxDimension : ℚ := 1024
  let nw : ℚ := if h < w then maxDimension else w * maxDimension / h
  let nh : ℚ := if h < w then h * maxDimension / w else maxDimension
  { canvasWidth := maxDimension
    canvasHeight := maxDimension
    newWidth := nw
    newHeight := nh
    x := (maxDimension - nw) / 2
    y := (maxDimension - nh) / 2
    format := "image/png" }

/-- The normalization contract of the design document for an input of
dimensions `w` by `h`: a fixed 1024 by 1024 PNG canvas, the larger input axis
mapped to 1024 and the other scaled proportionally, the content centered with
offset `(1024 - newDim) / 2` on each axis. -/
def NormalizeContract (w h : ℚ) : Prop :=
  (normalizeImage w h).canvasWidth = 1024
  ∧ (normalizeImage w h).canvasHeight = 1024
  ∧ (normalizeImage w h).format = "image/png"
  ∧ max (normalizeImage w h).newWidth (normalizeImage w h).newHeight = 1024
  ∧ (h < w → (normalizeImage w h).newWidth = 1024
      ∧ (normalizeImage w h).newHeight = h * 1024 / w)
  ∧ (w ≤ h → (normalizeImage w h).newHeight = 1024
      ∧ (normalizeImage w h).newWidth = w * 1024 / h)
  ∧ (normalizeImage w h).x = (1024 - (normalizeImage w h).newWidth) / 2
  ∧ (normalizeImage w h).y = (1024 - (normalizeImage w h).newHeight) / 2

/-- C3: every positive input satisfies the normalization contract, and the
2000 by 1000 input yields a 1024 by 512 content area at offset (0, 256),
leaving 256 pixels of padding above and below. -/
theorem normalize_square_canvas (w h : ℚ) (hw : 0 < w) (hh : 0 < h) :
    NormalizeContract w h
    ∧ (normalizeImage 2000 1000).newWidth = 1024
    ∧ (normalizeImage 2000 1000).newHeight = 512
    ∧ (normalizeImage 2000 1000).x = 0
    ∧ (normalizeImage 2000 1000).y = 256
    ∧ 1024 - ((normalizeImage 2000 1000).y + (normalizeImage 2000 1000).newHeight) = 256 := by
  have hW : h < w → (normalizeImage w h).newWidth = 1024
      ∧ (normalizeImage w h).newHeight = h * 1024 / w := by
    intro hlt
    constructor
    · show (if h < w then (1024 : ℚ) else w * 1024 / h) = 1024
      rw [if_pos hlt]
    · show (if h < w then h * 1024 / w else (1024 : ℚ)) = h * 1024 / w
      rw [if_pos hlt]
  have hH : w ≤ h → (normalizeImage w h).newHeight = 1024
      ∧ (normalizeImage w h).newWidth = w * 1024 / h := by
    intro hle
    have hnlt : ¬ h < w := not_lt.mpr hle
    constructor
    · show (if h < w then h * 1024 / w else (1024 : ℚ)) = 1024
      rw [if_neg hnlt]
    · show (if h < w then (1024 : ℚ) else w * 1024 / h) = w * 1024 / h
      rw [if_neg hnlt]
  have hmax : max (normalizeImage w h).newWidth (normalizeImage w h).newHeight = 1024 := by
    by_cases hcmp : h < w
    · obtain ⟨e1, e2⟩ := hW hcmp
      rw [e1, e2]
      exact max_eq_left (by rw [div_le_iff₀ hw]; nlinarith)
    · obtain ⟨e1, e2⟩ := hH (not_lt.mp hcmp)
      rw [e1, e2]
      exact max_eq_right (by rw [div_le_iff₀ hh]; nlinarith)
  exact ⟨⟨rfl, rfl, rfl, hmax, hW, hH, rfl, rfl⟩,
    by norm_num [normalizeImage], by norm_num [normalizeImage],
    by norm_num [normalizeImage], by norm_num [normalizeImage], by norm_num [normalizeImage]⟩

/-! ## Binary/text codec (src/services/geminiService.ts)

`dataUrlToParts` splits the data URL on `','` (requiring exactly two
segments) and extracts the media type from the header with the regular
expression pattern colon, lazy dot-star capture, semicolon; the transport
string itself is built with the template
`data:<mimeType>;base64,<base64Data>`.  Strings are modelled as character
lists so that the splitting can be reasoned about; the regular expression
dot matches every character except the four JavaScript line terminators. -/

def base64Table : List Char :=
  ("ABCDEFGHIJKLMNOPQRSTUVWXYZabcdefghijklmnopqrstuvwxyz0123456789+/").data

def b64c (n : Nat) : Char :=
  base64Table.getD n 'A'

/-- Modelled from the spec: the repository delegates byte-level base64
encoding to the platform (`canvas.toDataURL`, `FileReader.readAsDataURL`);
the codec contract calls it a deterministic reversible text encoding, which
is standard base64 over the byte stream. -/
def base64Encode : List Nat → List Char
  | [] => []
  | [b1] => [b64c (b1 / 4), b64c (b1 % 4 * 16), '=', '=']
  | [b1, b2] => [b64c (b1 / 4), b64c (b1 % 4 * 16 + b2 / 16), b64c (b2 % 16 * 4), '=']
  | b1 :: b2 :: b3 :: rest =>
    b64c (b1 / 4) :: b64c (b1 % 4 * 16 + b2 / 16) :: b64c (b2 % 16 * 4 + b3 / 64)
      :: b64c (b3 % 64) :: base64Encode rest

/-- JavaScript string interpolation of a possibly-undefined value: an absent
value prints as the text `undefined`. -/
def jsTemplateStr : Option (List Char) → List Char
  | some s => s
  | none => ("undefined").data

/-- The transport string built by the service:
`data:<newMimeType>;base64,<newImageBase64>`. -/
def mkImageUrl (mimeType : Option (List Char)) (base64Data : List Char) : List Char :=
  ("data:").data ++ jsTemplateStr mimeType ++ (";base64,").data ++ base64Data

/-- `dataUrl.split(',')`. -/
def splitComma : List Char → List (List Char)
  | [] => [[]]
  | c :: rest =>
    if c = ',' then [] :: splitComma rest
    else
      match splitComma rest with
      | [] => [[c]]
      | g :: gs => (c :: g) :: gs

/-- The characters matched by the regular-expression dot: everything except
the JavaScript line terminators. -/
def isDotChar (c : Char) : Bool :=
  !(c == '\n' || c == '\r' || c == Char.ofNat 0x2028 || c == Char.ofNat 0x2029)

/-- The lazy capture of the pattern: the shortest run of dot-characters up
to a `';'`; fails if the input ends or a non-dot character appears first. -/
def takeToSemi : List Char → Option (List Char)
  | [] => none
  | c :: rest =>
    if c = ';' then some []
    else if isDotChar c then (takeToSemi rest).map (fun g => c :: g)
    else none

/-- Leftmost match of the pattern colon, lazy capture, semicolon: scan for a
`':'` whose suffix yields a capture, otherwise keep scanning. -/
def matchColonSemi : List Char → Option (List Char)
  | [] => none
  | c :: rest =>
    if c = ':' then
      match takeToSemi rest with
      | some cap => some cap
      | none => matchColonSemi rest
    else matchColonSemi rest

/-- `dataUrlToParts`: split on `','`, require exactly two segments, then
extract the media type from the header; an absent or empty capture is an
error.  Returns `(base64Data, mimeType)`. -/
def dataUrlToParts (dataUrl : List Char) : Except String (List Char × List Char) :=
  match splitComma dataUrl with
  | [header, base64Data] =>
    match matchColonSemi header with
    | some mimeType =>
      if mimeType = [] then Except.error ("Could not extract MIME type from data URL")
      else Except.ok (base64Data, mimeType)
    | none => Except.error ("Could not extract MIME type from data URL")
  | _ => Except.error ("Invalid data URL format")

lemma b64c_mem (n : Nat) : b64c n ∈ base64Table := by
  unfold b64c
  rcases h : base64Table.get? n with _ | c
  · rw [List.getD_eq_getD_get?, h]
    decide
  · rw [List.getD_eq_getD_get?, h]
    exact List.get?_mem h

lemma base64Table_no_comma : ∀ c ∈ base64Table, c ≠ ',' := by decide

lemma b64c_ne_comma (n : Nat) : b64c n ≠ ',' :=
  base64Table_no_comma _ (b64c_mem n)

lemma base64Encode_no_comma : ∀ (b : List Nat), ∀ c ∈ base64Encode b, c ≠ ','
  | [] => by simp [base64Encode]
  | [b1] => by
    intro c hc
    simp [base64Encode] at hc
    rcases hc with rfl | rfl | rfl
    · exact b64c_ne_comma _
    · exact b64c_ne_comma _
    · decide
  | [b1, b2] => by
    intro c hc
    simp [base64Encode] at hc
    rcases hc with rfl | rfl | rfl | rfl
    · exact b64c_ne_comma _
    · exact b64c_ne_comma _
    · exact b64c_ne_comma _
    · decide
  | b1 :: b2 :: b3 :: b4 :: rest => by
    intro c hc
    simp [base64Encode] at hc
    rcases hc with rfl | rfl | rfl | rfl | hmem
    · exact b64c_ne_comma _
    · exact b64c_ne_comma _
    · exact b64c_ne_comma _
    · exact b64c_ne_comma _
    · exact base64Encode_no_comma (b4 :: rest) c hmem
  | [b1, b2, b3] => by
    intro c hc
    simp [base64Encode] at hc
    rcases hc with rfl | rfl | rfl | rfl
    · exact b64c_ne_comma _
    · exact b64c_ne_comma _
    · exact b64c_ne_comma _
    · exact b64c_ne_comma _

lemma splitComma_no_comma (a : List Char) (h : ∀ c ∈ a, c ≠ ',') :
    splitComma a = [a] := by
  induction a with
  | nil => rfl
  | cons c rest ih =>
    have hc : c ≠ ',' := h c (by simp)
    unfold splitComma
    rw [if_neg hc, ih (fun x hx => h x (by simp [hx]))]

lemma splitComma_append (a b : List Char) (h : ∀ c ∈ a, c ≠ ',') :
    splitComma (a ++ ',' :: b) = a :: splitComma b := by
  induction a with
  | nil => simp [splitComma]
  | cons c rest ih =>
    have hc : c ≠ ',' := h c (by simp)
    simp only [List.cons_append, splitComma, List.append_eq]
    rw [if_neg hc, ih (fun x hx => h x (by simp [hx]))]

lemma takeToSemi_append (m tail : List Char)
    (h : ∀ c ∈ m, c ≠ ';' ∧ isDotChar c = true) :
    takeToSemi (m ++ ';' :: tail) = some m := by
  induction m with
  | nil => simp [takeToSemi]
  | cons c tl ih =>
    obtain ⟨hc1, hc2⟩ := h c (by simp)
    simp only [List.cons_append]
    unfold takeToSemi
    rw [if_neg hc1, if_pos hc2, ih (fun x hx => h x (by simp [hx]))]
    rfl

lemma matchColonSemi_header (m tail : List Char)
    (h : ∀ c ∈ m, c ≠ ';' ∧ isDotChar c = true) :
    matchColonSemi ('d' :: 'a' :: 't' :: 'a' :: ':' :: (m ++ ';' :: tail)) = some m := by
  have ht := takeToSemi_append m tail h
  simp [matchColonSemi, ht]

def exceptDecEq {ε α : Type} [DecidableEq ε] [DecidableEq α] :
    DecidableEq (Except ε α) := fun x y =>
  match x, y with
  | .ok a, .ok b =>
    if h : a = b then isTrue (by rw [h]) else isFalse (fun hh => h (Except.ok.inj hh))
  | .error a, .error b =>
    if h : a = b then isTrue (by rw [h]) else isFalse (fun hh => h (Except.error.inj hh))
  | .ok _, .error _ => isFalse (fun hh => Except.noConfusion hh)
  | .error _, .ok _ => isFalse (fun hh => Except.noConfusion hh)

instance {ε α : Type} [DecidableEq ε] [DecidableEq α] : DecidableEq (Except ε α) :=
  exceptDecEq

/-- C4 counterexample: the media type `text/plain;charset=utf-8` (a
syntactically valid MIME type carrying a parameter) does not survive the
round trip: the lazy capture stops at the first `';'`, so decoding returns
media type `text/plain`. -/
theorem dataUrl_roundtrip_media_type_cex :
    dataUrlToParts (mkImageUrl (some (("text/plain;charset=utf-8").data)) (base64Encode [65]))
      ≠ Except.ok (base64Encode [65], ("text/plain;charset=utf-8").data) := by
  intro h
  rw [show dataUrlToParts (mkImageUrl (some (("text/plain;charset=utf-8").data))
        (base64Encode [65]))
      = Except.ok (base64Encode [65], ("text/plain").data) from rfl] at h
  have h2 := Prod.mk.injEq .. ▸ (Except.ok.inj h)
  exact absurd h2.2 (by decide)

/-- C4 (amended): for every byte sequence and every non-empty media type
containing neither `';'` nor `','` nor a line terminator, parsing the
transport string recovers exactly the base64 payload and the media type. -/
theorem dataUrl_roundtrip_restricted (b : List Nat) (m : List Char)
    (hne : m ≠ [])
    (hm : ∀ c ∈ m, c ≠ ';' ∧ c ≠ ',' ∧ isDotChar c = true) :
    dataUrlToParts (mkImageUrl (some m) (base64Encode b))
      = Except.ok (base64Encode b, m) := by
  have hd5 : ("data:").data = ['d', 'a', 't', 'a', ':'] := rfl
  have hb8 : (";base64,").data = [';', 'b', 'a', 's', 'e', '6', '4', ','] := rfl
  have hb7 : ("base64").data = ['b', 'a', 's', 'e', '6', '4'] := rfl
  have hA : ∀ c ∈ ('d' :: 'a' :: 't' :: 'a' :: ':' :: (m ++ ';' :: ("base64").data)), c ≠ ',' := by
    intro c hc
    rw [hb7] at hc
    simp at hc
    rcases hc with rfl | rfl | rfl | rfl | rfl | hc
    · decide
    · decide
    · decide
    · decide
    · decide
    rcases hc with hc | hc
    · exact (hm c hc).2.1
    · rcases hc with rfl | rfl | rfl | rfl | rfl | rfl | rfl <;> decide
  have hurl : mkImageUrl (some m) (base64Encode b)
      = ('d' :: 'a' :: 't' :: 'a' :: ':' :: (m ++ ';' :: ("base64").data))
          ++ ',' :: base64Encode b := by
    unfold mkImageUrl jsTemplateStr
    rw [hd5, hb8, hb7]
    simp
  have hsplit : splitComma (mkImageUrl (some m) (base64Encode b))
      = ('d' :: 'a' :: 't' :: 'a' :: ':' :: (m ++ ';' :: ("base64").data))
          :: [base64Encode b] := by
    rw [hurl, splitComma_append _ _ hA,
        splitComma_no_comma _ (base64Encode_no_comma b)]
  unfold dataUrlToParts
  rw [hsplit]
  show (match matchColonSemi ('d' :: 'a' :: 't' :: 'a' :: ':' :: (m ++ ';' :: ("base64").data)) with
    | some mimeType =>
      if mimeType = [] then Except.error ("Could not extract MIME type from data URL")
      else Except.ok (base64Encode b, mimeType)
    | none => Except.error ("Could not extract MIME type from data URL")) = _
  rw [matchColonSemi_header m _ (fun c hc => ⟨(hm c hc).1, (hm c hc).2.2⟩)]
  show (if m = [] then Except.error ("Could not extract MIME type from data URL")
    else Except.ok (base64Encode b, m)) = _
  rw [if_neg hne]

theorem dataUrl_roundtrip_restricted_witness :
    ("image/png").data ≠ []
    ∧ (∀ c ∈ ("image/png").data, c ≠ ';' ∧ c ≠ ',' ∧ isDotChar c = true)
    ∧ dataUrlToParts (mkImageUrl (some (("image/png").data)) (base64Encode [72, 105]))
        = Except.ok (base64Encode [72, 105], ("image/png").data) :=
  ⟨by decide, by decide,
   dataUrl_roundtrip_restricted [72, 105] (("image/png").data) (by decide) (by decide)⟩

theorem normalize_square_canvas_witness :
    0 < (2000 : ℚ) ∧ 0 < (1000 : ℚ) ∧
    (NormalizeContract 2000 1000
      ∧ (normalizeImage 2000 1000).newWidth = 1024
      ∧ (normalizeImage 2000 1000).newHeight = 512
      ∧ (normalizeImage 2000 1000).x = 0
      ∧ (normalizeImage 2000 1000).y = 256
      ∧ 1024 - ((normalizeImage 2000 1000).y + (normalizeImage 2000 1000).newHeight) = 256) :=
  ⟨by norm_num, by norm_num, normalize_square_canvas 2000 1000 (by norm_num) (by norm_num)⟩

/-! ## Transport response parsing (`editImageWithGemini`, src/services/geminiService.ts)

The response loop scans `response.candidates[0].content.parts`; a part with
a truthy `inlineData` overwrites `newImageBase64` and `newMimeType`
(`newMimeType = part.inlineData.mimeType` — possibly `undefined`), otherwise
a part with truthy (non-empty) `text` is appended to `newText`.  After the
loop, a falsy `newImageBase64` (absent or the empty string) raises either
the refusal error (when `newText` is truthy) or the no-image error.  Text
payloads are modelled as character lists. -/

structure InlineData where
  data : List Char
  mimeType : Option (List Char)
deriving DecidableEq

structure RespPart where
  inlineData : Option InlineData
  text : Option (List Char)
deriving DecidableEq

inductive EditError where
  | noCandidates
  | refused (commentary : List Char)
  | noImage
deriving DecidableEq

structure EditOk where
  imageBase64 : List Char
  mimeType : Option (List Char)
  text : List Char
deriving DecidableEq

structure ScanState where
  newImageBase64 : Option (List Char)
  newText : List Char
  newMimeType : Option (List Char)
deriving DecidableEq

/-- One iteration of the `for (const part of ...)` loop. -/
def scanPart (st : ScanState) (p : RespPart) : ScanState :=
  match p.inlineData with
  | some idata => { st with newImageBase64 := some idata.data, newMimeType := idata.mimeType }
  | none =>
    match p.text with
    | some t => if t = [] then st else { st with newText := st.newText ++ t }
    | none => st

/-- JavaScript falsiness of `newImageBase64`: `null` or the empty string. -/
def jsFalsy : Option (List Char) → Bool
  | none => true
  | some s => s.isEmpty

/-- The post-loop classification: falsy image with truthy text is the
refusal error, falsy image without text is the no-image error, otherwise the
result is returned. -/
def parseParts (reqMime : List Char) (parts : List RespPart) : Except EditError EditOk :=
  let st := parts.foldl scanPart
    { newImageBase64 := none, newText := [], newMimeType := some reqMime }
  if jsFalsy st.newImageBase64 then
    if st.newText = [] then Except.error EditError.noImage
    else Except.error (EditError.refused st.newText)
  else
    Except.ok
      { imageBase64 := st.newImageBase64.getD []
        mimeType := st.newMimeType
        text := st.newText }

/-- The guard `response.candidates && ... && candidates[0].content.parts`:
an absent part list is the no-candidates error. -/
def parseResponse (reqMime : List Char) : Option (List RespPart) → Except EditError EditOk
  | none => Except.error EditError.noCandidates
  | some parts => parseParts reqMime parts

/-- A part counts as a text part when the loop treats it as one: no inline
payload and a present text field. -/
def textOf (p : RespPart) : Option (List Char) :=
  match p.inlineData with
  | some _ => none
  | none => p.text

/-- The concatenation of all text parts in their original order. -/
def concatTexts : List RespPart → List Char
  | [] => []
  | p :: ps => (textOf p).getD [] ++ concatTexts ps

/-- The last inline-image part of the list, in part order. -/
def lastInline : List RespPart → Option InlineData
  | [] => none
  | p :: ps =>
    match lastInline ps with
    | some i => some i
    | none => p.inlineData

lemma foldl_scan_text (parts : List RespPart) (st : ScanState) :
    (parts.foldl scanPart st).newText = st.newText ++ concatTexts parts := by
  induction parts generalizing st with
  | nil => simp [concatTexts]
  | cons p ps ih =>
    obtain ⟨pi, pt⟩ := p
    rw [List.foldl_cons, ih]
    cases pi with
    | some idata => simp [scanPart, concatTexts, textOf]
    | none =>
      cases pt with
      | none => simp [scanPart, concatTexts, textOf]
      | some t =>
        by_cases ht : t = []
        · subst ht
          simp [scanPart, concatTexts, textOf]
        · simp [scanPart, concatTexts, textOf, ht]

lemma foldl_scan_inline (parts : List RespPart) (st : ScanState) :
    (parts.foldl scanPart st).newImageBase64
        = (match lastInline parts with
           | some i => some i.data
           | none => st.newImageBase64)
    ∧ (parts.foldl scanPart st).newMimeType
        = (match lastInline parts with
           | some i => i.mimeType
           | none => st.newMimeType) := by
  induction parts generalizing st with
  | nil => exact ⟨rfl, rfl⟩
  | cons p ps ih =>
    obtain ⟨pi, pt⟩ := p
    rw [List.foldl_cons]
    obtain ⟨ih1, ih2⟩ := ih (scanPart st ⟨pi, pt⟩)
    rw [ih1, ih2]
    cases hli : lastInline ps with
    | some i => simp [lastInline, hli]
    | none =>
      cases pi with
      | some idata => simp [lastInline, hli, scanPart]
      | none =>
        cases pt with
        | none => simp [lastInline, hli, scanPart]
        | some t =>
          by_cases ht : t = []
          · subst ht
            simp [lastInline, hli, scanPart]
          · simp [lastInline, hli, scanPart, ht]

lemma lastInline_none (parts : List RespPart) (h : ∀ q ∈ parts, q.inlineData = none) :
    lastInline parts = none := by
  induction parts with
  | nil => rfl
  | cons p ps ih =>
    unfold lastInline
    rw [ih (fun q hq => h q (by simp [hq])), h p (by simp)]

lemma concatTexts_ne_nil (parts : List RespPart) (p : RespPart) (t : List Char)
    (hp : p ∈ parts) (hpt : textOf p = some t) (ht : t ≠ []) :
    concatTexts parts ≠ [] := by
  induction parts with
  | nil => cases hp
  | cons q ps ih =>
    unfold concatTexts
    rcases List.mem_cons.mp hp with rfl | hmem
    · rw [hpt]
      simp [ht]
    · intro hcontra
      rcases List.append_eq_nil.mp hcontra with ⟨_, h2⟩
      exact ih hmem h2

/-- C5 counterexample: an inline-image part whose payload is the empty
string is falsy in JavaScript, so the loop result is discarded and the
no-image error is raised instead of returning that part as the result. -/
theorem last_image_empty_payload_cex :
    parseParts (("image/png").data)
      [{ inlineData := some { data := [], mimeType := some (("image/png").data) }, text := none }]
      = Except.error EditError.noImage := by
  rfl

/-- C5 (amended): whenever the part list has an inline-image part and the
last such part carries a non-empty payload, the parse returns exactly that
part (payload and media-type field) together with the concatenation of all
text parts in their original order. -/
theorem transport_last_image_wins (reqMime : List Char) (parts : List RespPart)
    (idata : InlineData)
    (hlast : lastInline parts = some idata) (hne : idata.data ≠ []) :
    parseParts reqMime parts
      = Except.ok { imageBase64 := idata.data, mimeType := idata.mimeType,
                    text := concatTexts parts } := by
  obtain ⟨h1, h2⟩ := foldl_scan_inline parts ⟨none, [], some reqMime⟩
  have h3 := foldl_scan_text parts ⟨none, [], some reqMime⟩
  rw [hlast] at h1 h2
  have hfalse : jsFalsy (some idata.data) = false := by
    simp [jsFalsy, List.isEmpty_iff, hne]
  simp [parseParts, h1, h2, h3, hfalse]

def lastImageWitnessParts : List RespPart :=
  [{ inlineData := some { data := ("old").data, mimeType := some (("image/png").data) },
     text := none },
   { inlineData := none, text := some (("first ").data) },
   { inlineData := some { data := ("new").data, mimeType := some (("image/jpeg").data) },
     text := none },
   { inlineData := none, text := some (("second").data) }]

theorem transport_last_image_wins_witness :
    lastInline lastImageWitnessParts
        = some { data := ("new").data, mimeType := some (("image/jpeg").data) }
    ∧ ("new").data ≠ []
    ∧ parseParts (("image/png").data) lastImageWitnessParts
        = Except.ok { imageBase64 := ("new").data, mimeType := some (("image/jpeg").data),
                      text := ("first second").data } := by
  refine ⟨by decide, by decide, ?_⟩
  have h := transport_last_image_wins (("image/png").data) lastImageWitnessParts
    { data := ("new").data, mimeType := some (("image/jpeg").data) } (by decide) (by decide)
  rw [h]
  rfl

/-- C7: a response whose parts carry at least one usable (truthy) text and
no inline image raises the refusal error carrying the concatenated
commentary verbatim. -/
theorem transport_refused_on_text_only (reqMime : List Char) (parts : List RespPart)
    (p : RespPart) (t : List Char)
    (hp : p ∈ parts) (hpt : p.text = some t) (ht : t ≠ [])
    (hni : ∀ q ∈ parts, q.inlineData = none) :
    parseParts reqMime parts = Except.error (EditError.refused (concatTexts parts)) := by
  have hli : lastInline parts = none := lastInline_none parts hni
  obtain ⟨h1, _⟩ := foldl_scan_inline parts ⟨none, [], some reqMime⟩
  have h3 := foldl_scan_text parts ⟨none, [], some reqMime⟩
  rw [hli] at h1
  have htxt : concatTexts parts ≠ [] := by
    refine concatTexts_ne_nil parts p t hp ?_ ht
    simp [textOf, hni p hp, hpt]
  simp [parseParts, h1, h3, htxt, jsFalsy]

theorem transport_refused_on_text_only_witness :
    parseParts (("image/png").data)
      [{ inlineData := none, text := some (("no can do").data) }]
      = Except.error (EditError.refused (("no can do").data)) := by
  have h := transport_refused_on_text_only (("image/png").data)
    [{ inlineData := none, text := some (("no can do").data) }]
    { inlineData := none, text := some (("no can do").data) } (("no can do").data)
    (by decide) rfl (by decide) (by decide)
  rw [h]
  rfl

/-- C8: `newMimeType = part.inlineData.mimeType` overwrites the
request-media-type initialisation unconditionally, so when the last (here
only) inline part omits its media type the returned media type is absent --
the template literal then renders it as the text `undefined` -- rather than
defaulting to the request media type `image/png`. -/
theorem mime_fallback_missing :
    parseParts (("image/png").data)
      [{ inlineData := some { data := ("AA").data, mimeType := none }, text := none }]
      = Except.ok { imageBase64 := ("AA").data, mimeType := none, text := [] }
    ∧ (none : Option (List Char)) ≠ some (("image/png").data)
    ∧ mkImageUrl none (("AA").data) = ("data:undefined;base64,AA").data :=
  ⟨by decide, by decide, by decide⟩

/-! ## Transport error classification (src/unnamed/part_000)

The `catch` block around the generate call: an inner `try` parses
`error.message` as JSON and, on `error.code === 429`, throws the quota
message.  That throw happens inside the inner `try`, so its own
`catch (e)` swallows it (as it swallows the JSON parse failure), and
control falls through to the single generic throw after the try/catch. -/

inductive ApiErrorMessage where
  | notJson
  | jsonNoCode
  | jsonWithCode (code : Int)

def quotaMessage : String :=
  "You\x27ve exceeded your API quota. Please check your plan and billing details."

def genericApiMessage : String :=
  "An error occurred while communicating with the AI. Please try again later."

/-- The classification observable from the caller: the inner computation may
raise (`Except.error`), the inner catch maps every raise to a fall-through,
and the generic message is thrown after it in all cases. -/
def classifyApiError (msg : ApiErrorMessage) : String :=
  let inner : Except String Unit :=
    match msg with
    | .notJson => Except.error ("Unexpected token")
    | .jsonNoCode => Except.ok ()
    | .jsonWithCode code =>
      if code = 429 then Except.error quotaMessage else Except.ok ()
  match inner with
  | .ok _ => genericApiMessage
  | .error _ => genericApiMessage

/-- C6: a structured error body with code 429 is surfaced as the generic
transport message, which differs from the quota message -- the quota throw
is swallowed by the inner catch, so the distinct quota error never reaches
the caller. -/
theorem quota_classification_swallowed :
    classifyApiError (ApiErrorMessage.jsonWithCode 429) = genericApiMessage
    ∧ genericApiMessage ≠ quotaMessage :=
  ⟨rfl, by decide⟩

/-! ## Orchestration: stale in-flight edits across resets -/

structure OrchState where
  epoch : Nat
  history : List String
  currentIndex : Int
  inflight : List (Nat × String)
deriving DecidableEq

inductive OrchEvent where
  | reset (img : String)
  | issueEdit (result : String)
  | deliver

/-- Modelled from the spec: the orchestration epoch mechanism.  The stale
drop is not in src -- in the repository it is realized by the host
framework, which recreates the editor component (and its state) for every
new input image, so a completion of an edit issued against a previous
instance can no longer reach the fresh history.  The design document
describes this as an epoch counter incremented on every reset, any
in-flight operation completing with a stale epoch being discarded rather
than committed; a fresh completion commits with the branch-overwrite rule
of the history controller. -/
def orchStep : OrchEvent → OrchState → OrchState
  | .reset img, s =>
    { epoch := s.epoch + 1, history := [img], currentIndex := 0, inflight := s.inflight }
  | .issueEdit r, s => { s with inflight := s.inflight ++ [(s.epoch, r)] }
  | .deliver, s =>
    match s.inflight with
    | [] => s
    | (tag, r) :: rest =>
      if tag = s.epoch then
        let newHistory := s.history.take (s.currentIndex + 1).toNat
        { s with history := newHistory ++ [r]
                 currentIndex := (newHistory.length : Int)
                 inflight := rest }
      else { s with inflight := rest }

def orchInit : OrchState :=
  { epoch := 0, history := [], currentIndex := -1, inflight := [] }

def orchRun (events : List OrchEvent) : OrchState :=
  events.foldl (fun s e => orchStep e s) orchInit

lemma orch_inflight_le_step (e : OrchEvent) (s : OrchState)
    (h : ∀ p ∈ s.inflight, p.1 ≤ s.epoch) :
    ∀ p ∈ (orchStep e s).inflight, p.1 ≤ (orchStep e s).epoch := by
  cases e with
  | reset img =>
    intro p hp
    have hle := h p hp
    show p.1 ≤ s.epoch + 1
    omega
  | issueEdit r =>
    intro p hp
    rcases List.mem_append.mp hp with hmem | hmem
    · exact h p hmem
    · have hpe : p = (s.epoch, r) := by simpa using hmem
      rw [hpe]
      exact Nat.le_refl _
  | deliver =>
    intro p hp
    cases hin : s.inflight with
    | nil =>
      simp only [orchStep, hin] at hp
      simp at hp
    | cons q rest =>
      obtain ⟨tag, r⟩ := q
      simp only [orchStep, hin] at hp ⊢
      by_cases htag : tag = s.epoch
      · rw [if_pos htag] at hp ⊢
        have hp2 : p ∈ rest := by simpa using hp
        have hle : p.1 ≤ s.epoch := h p (by rw [hin]; exact List.mem_cons_of_mem _ hp2)
        simpa using hle
      · rw [if_neg htag] at hp ⊢
        have hp2 : p ∈ rest := by simpa using hp
        have hle : p.1 ≤ s.epoch := h p (by rw [hin]; exact List.mem_cons_of_mem _ hp2)
        simpa using hle

lemma orch_inflight_le_aux (events : List OrchEvent) (s : OrchState)
    (h : ∀ p ∈ s.inflight, p.1 ≤ s.epoch) :
    ∀ p ∈ (events.foldl (fun s e => orchStep e s) s).inflight,
      p.1 ≤ (events.foldl (fun s e => orchStep e s) s).epoch := by
  induction events generalizing s with
  | nil => exact h
  | cons e es ih => exact ih (orchStep e s) (orch_inflight_le_step e s h)

lemma orch_inflight_le (events : List OrchEvent) :
    ∀ p ∈ (orchRun events).inflight, p.1 ≤ (orchRun events).epoch :=
  orch_inflight_le_aux events orchInit (by intro p hp; cases hp)

/-- C10: after any event sequence ending in a reset, every in-flight edit
carries a strictly smaller epoch than the current one; and delivering a
completion whose epoch differs from the current epoch leaves the history
and the cursor untouched (the stale result is dropped, never committed). -/
theorem stale_edit_dropped :
    (∀ (events : List OrchEvent) (img : String),
      ∀ p ∈ (orchRun (events ++ [OrchEvent.reset img])).inflight,
        p.1 < (orchRun (events ++ [OrchEvent.reset img])).epoch)
    ∧ (∀ (s : OrchState) (tag : Nat) (r : String) (rest : List (Nat × String)),
        s.inflight = (tag, r) :: rest → tag ≠ s.epoch →
        (orchStep OrchEvent.deliver s).history = s.history
        ∧ (orchStep OrchEvent.deliver s).currentIndex = s.currentIndex) := by
  constructor
  · intro events img p hp
    rw [orchRun, List.foldl_append] at hp ⊢
    have hle := orch_inflight_le events p (by
      show p ∈ (orchRun events).inflight
      exact hp)
    show p.1 < (orchRun events).epoch + 1
    omega
  · intro s tag r rest hin htag
    have h1 : orchStep OrchEvent.deliver s = { s with inflight := rest } := by
      simp only [orchStep, hin]
      rw [if_neg htag]
    rw [h1]
    exact ⟨rfl, rfl⟩

theorem stale_edit_dropped_witness :
    (1 : Nat)
      < (orchRun ([OrchEvent.reset ("a"), OrchEvent.issueEdit ("x")]
          ++ [OrchEvent.reset ("b")])).epoch
    ∧ (orchStep OrchEvent.deliver ⟨2, [("b")], 0, [(1, ("x"))]⟩).history = [("b")]
    ∧ (orchStep OrchEvent.deliver ⟨2, [("b")], 0, [(1, ("x"))]⟩).currentIndex = 0 := by
  refine ⟨?_, ?_, ?_⟩
  · exact stale_edit_dropped.1 [OrchEvent.reset ("a"), OrchEvent.issueEdit ("x")] ("b")
      (1, ("x")) (by decide)
  · exact (stale_edit_dropped.2 ⟨2, [("b")], 0, [(1, ("x"))]⟩ 1 ("x") [] rfl (by decide)).1
  · exact (stale_edit_dropped.2 ⟨2, [("b")], 0, [(1, ("x"))]⟩ 1 ("x") [] rfl (by decide)).2

end Photon
